import Mathlib

/-!
# Verification of the BAE error-curve aggregation pipeline

Shallow embedding of the error-curve aggregation code of the BAE repository
(`src/utils/binning.py`), of the query-count conversions of
`src/algorithms/QAE_emulator.py`, and of the post-runner control flow of
`src/algorithms/BAE_testing.py`.

Conventions of the embedding:
* Python floats are idealised as real numbers (`ℝ`).
* The IEEE NaN produced by the `0/0` slope division is modelled by `Option ℝ`
  (`none` = NaN), matching the pandas `skipna`/`dropna` semantics that the
  source relies on.  A zero denominator with nonzero numerator gives IEEE
  `±inf`, which `dropna` keeps; it is represented by the real
  division-by-zero junk value, likewise kept.
* Fallible paths of the source are modelled by `Except PyError`, with the
  constructor recording the Python exception class raised at that point.
* The results of `scipy.optimize.curve_fit` and of the scipy spline fit are
  external collaborators (out of the spec's core scope); they enter the
  embedding as explicit parameters `fitSlope` / `splineFun` and only influence
  the output y-values of the `fit` / `spline` strategies.
-/

namespace BAE

noncomputable section

/-- Python `min(xs)` over a list (junk `0` for `[]`, where the source raises
`ValueError`; `bin_and_average` turns that case into an error before use). -/
def listMin : List ℝ → ℝ
  | [] => 0
  | x :: t => t.foldl min x

/-- Python `max(xs)` over a list (junk `0` for `[]`). -/
def listMax : List ℝ → ℝ
  | [] => 0
  | x :: t => t.foldl max x

/-- Arithmetic mean, as computed by `pandas.GroupBy.mean` on a column without
NaN entries. -/
def lmean (l : List ℝ) : ℝ := l.sum / l.length

/-- `pandas.GroupBy.median`: middle element of the sorted column for odd
length, average of the two middle elements for even length. -/
def lmedian (l : List ℝ) : ℝ :=
  let s := l.mergeSort (fun a b => decide (a ≤ b))
  if l.length % 2 = 1 then s.getD (l.length / 2) 0
  else (s.getD (l.length / 2 - 1) 0 + s.getD (l.length / 2) 0) / 2

/-- `pandas.GroupBy.mean` of one column with `skipna` semantics: NaN entries
(`none`) are ignored; the result is NaN iff no non-NaN entry exists. -/
def meanOpt (l : List (Option ℝ)) : Option ℝ :=
  match l.filterMap id with
  | [] => none
  | v => some (lmean v)

/-- `pandas.GroupBy.median` of one column with `skipna` semantics. -/
def medianOpt (l : List (Option ℝ)) : Option ℝ :=
  match l.filterMap id with
  | [] => none
  | v => some (lmedian v)

/-- `np.linspace(a, b, n)`: the `n` points `a + i*(b-a)/(n-1)`.  For `n = 1`
the real division-by-zero junk `x/0 = 0` reproduces numpy's single point
`[a]`. -/
def linspace (a b : ℝ) (n : ℕ) : List ℝ :=
  (List.range n).map (fun i : ℕ => a + (i : ℝ) * ((b - a) / ((n : ℝ) - 1)))

/-- `np.logspace(la, lb, n, base=np.e)` = `exp` of `linspace la lb n`. -/
def logspace (la lb : ℝ) (n : ℕ) : List ℝ :=
  (linspace la lb n).map Real.exp

/-- `bin_by_values` (binning.py:134-146), edge computation.  On
`scale = "log"` the edges are
`np.logspace(np.log(xrange[0]), np.log(xrange[1]), nbins, base=np.e)`; on any
other scale string the code falls through to the `"linear"` branch
`np.linspace(xrange[0], xrange[1], nbins)`.  Note that `nbins` here counts
*edges*: the caller `bin_and_average` passes `nbins + 1`. -/
def bin_by_values_edges (xrange : ℝ × ℝ) (nbins : ℕ) (scale : String) : List ℝ :=
  if scale = "log" then logspace (Real.log xrange.1) (Real.log xrange.2) nbins
  else linspace xrange.1 xrange.2 nbins

/-- Helper for `cutBin`: walk the remaining edges looking for the right-closed
interval `(e_i, e_{i+1}]` containing `x`, starting at bucket index `i`. -/
def cutFrom (x : ℝ) : List ℝ → ℕ → Option ℕ
  | e1 :: e2 :: rest, i =>
      if e1 < x ∧ x ≤ e2 then some i else cutFrom x (e2 :: rest) (i + 1)
  | _, _ => none

/-- `pandas.cut(xs, bins=edges, include_lowest=True)` membership
(binning.py:142): bucket `i` is the right-closed interval `(e_i, e_{i+1}]`,
except that bucket `0` also contains its left edge (`include_lowest=True`);
`none` models the NaN label given to out-of-range samples, which the
subsequent `groupby` discards. -/
def cutBin (edges : List ℝ) (x : ℝ) : Option ℕ :=
  match edges with
  | e0 :: e1 :: rest => if e0 ≤ x ∧ x ≤ e1 then some 0 else cutFrom x (e1 :: rest) 1
  | _ => none

/-- The `logscale` decorator applied to `calculate_slope`
(binning.py:224-234): the slope between `log(reference)` and `log(point)`,
`(log y0 - log y) / (log x0 - log x)`.  `none` models the IEEE NaN of the
`0/0` division. -/
def calculate_slope (reference point : ℝ × ℝ) : Option ℝ :=
  let x0 := Real.log reference.1
  let y0 := Real.log reference.2
  let x := Real.log point.1
  let y := Real.log point.2
  if x0 - x = 0 ∧ y0 - y = 0 then none
  else some ((y0 - y) / (x0 - x))

/-- `eval_power_function` (binning.py:194-198): `y = (x0*y0) * x**power`.
The fixed point is used exactly as passed — its y-coordinate is *not*
squared here. -/
def eval_power_function (x power : ℝ) (fixed_point : ℝ × ℝ) : ℝ :=
  fixed_point.1 * fixed_point.2 * x ^ power

/-- The DataFrame built by `bin_and_average` (binning.py:37-44): one row
`(x, y, slope?)` per sample.  The `slope` column (relative to the fixed point
with its y-coordinate squared, binning.py:41-43) is present exactly when a
fixed point is given; `none` in the absence of a fixed point stands for the
missing column. -/
def mkRows (xs ys : List ℝ) (fp : Option (ℝ × ℝ)) : List (ℝ × ℝ × Option ℝ) :=
  match fp with
  | none => List.zipWith (fun x y => (x, y, none)) xs ys
  | some p => List.zipWith (fun x y => (x, y, calculate_slope (p.1, p.2 ^ 2) (x, y))) xs ys

/-- The bin edges used by `bin_and_average` (binning.py:35,46,55-56):
`nbins + 1` log-spaced edges over `[min xs, max xs]` (`scale` is hard-coded
to `"log"`). -/
def binEdges (xs : List ℝ) (nbins : ℕ) : List ℝ :=
  bin_by_values_edges (listMin xs, listMax xs) (nbins + 1) "log"

/-- The rows `pandas.cut` assigns to bucket `b`. -/
def bucketMembers (xs ys : List ℝ) (fp : Option (ℝ × ℝ)) (nbins : ℕ) (b : ℕ) :
    List (ℝ × ℝ × Option ℝ) :=
  (mkRows xs ys fp).filter (fun r => decide (cutBin (binEdges xs nbins) r.1 = some b))

/-- `df.groupby('bin', observed=True)` (binning.py:64-70): the non-empty
buckets in ascending bin order, with their member rows. -/
def buckets (xs ys : List ℝ) (fp : Option (ℝ × ℝ)) (nbins : ℕ) :
    List (ℕ × List (ℝ × ℝ × Option ℝ)) :=
  (List.range nbins).filterMap (fun b =>
    if (bucketMembers xs ys fp nbins b).isEmpty then none
    else some (b, bucketMembers xs ys fp nbins b))

/-- Column aggregation: mean (`groupby(...).mean()`) or median
(`groupby(...).median()`). -/
def statAgg (useMedian : Bool) (l : List ℝ) : ℝ :=
  if useMedian then lmedian l else lmean l

/-- Column aggregation with `skipna` semantics for the slope column. -/
def statAggOpt (useMedian : Bool) (l : List (Option ℝ)) : Option ℝ :=
  if useMedian then medianOpt l else meanOpt l

/-- One aggregated row (binning.py:60-74): `log` transform of the x and y
columns when `logdomain`, column-wise mean/median (pandas skips NaN inside a
group), then `exp` back. -/
def aggRow (useMedian logdomain : Bool) (ms : List (ℝ × ℝ × Option ℝ)) : ℝ × ℝ × Option ℝ :=
  let tx : ℝ → ℝ := fun v => if logdomain then Real.log v else v
  let ax := statAgg useMedian (ms.map (fun r => tx r.1))
  let ay := statAgg useMedian (ms.map (fun r => tx r.2.1))
  let asl := statAggOpt useMedian (ms.map (fun r => r.2.2))
  (if logdomain then Real.exp ax else ax, if logdomain then Real.exp ay else ay, asl)

/-- The aggregated DataFrame, one row `(bin, x, y, slope?)` per non-empty
bucket, before `dropna`. -/
def aggRows (useMedian logdomain : Bool) (xs ys : List ℝ) (fp : Option (ℝ × ℝ))
    (nbins : ℕ) : List (ℕ × ℝ × ℝ × Option ℝ) :=
  (buckets xs ys fp nbins).map (fun g => (g.1, aggRow useMedian logdomain g.2))

/-- `.dropna()` (binning.py:66,70): when the slope column exists (a fixed
point was given), aggregated rows whose slope entry is NaN are removed;
the x/y aggregates of real samples are never NaN, so nothing else is
dropped. -/
def keptRows (useMedian logdomain : Bool) (xs ys : List ℝ) (fp : Option (ℝ × ℝ))
    (nbins : ℕ) : List (ℕ × ℝ × ℝ × Option ℝ) :=
  if fp.isSome then
    (aggRows useMedian logdomain xs ys fp nbins).filter (fun r => r.2.2.2.isSome)
  else aggRows useMedian logdomain xs ys fp nbins

/-- The supported strategy names (binning.py:14). -/
def strats : List String := ["y_mean", "y_median", "slope_mean", "slope_median", "fit", "spline"]

/-- The Python exceptions raised on the fallible paths modelled here. -/
inductive PyError where
  | valueError : PyError
  | assertionError : PyError
  | keyError : PyError
  | typeError : PyError
deriving DecidableEq

/-- An aggregated curve: the pair of x- and y-sequences returned by
`bin_and_average` (with `full_output=False`). -/
structure AggResult where
  xs : List ℝ
  ys : List ℝ

/-- The evaluation grid of the `fit` and `spline` strategies
(binning.py:91-96,117-120): shrink the log-range inward by half a bin width
(`binwidth = (log max - log min) / nbins`) on each side, then take `nbins`
log-spaced points. -/
def shrunkGrid (xs : List ℝ) (nbins : ℕ) : List ℝ :=
  logspace
    (Real.log (listMin xs) +
      (Real.log (listMax xs) - Real.log (listMin xs)) / (nbins : ℝ) / 2)
    (Real.log (listMax xs) -
      (Real.log (listMax xs) - Real.log (listMin xs)) / (nbins : ℝ) / 2)
    nbins

/-- Whether the strategy name selects the `.median()` aggregation
(binning.py:68) rather than `.mean()` (binning.py:64). -/
def useMedian (strategy : String) : Bool :=
  decide (strategy = "y_median" ∨ strategy = "slope_median")

/-- The strategy dispatch of `bin_and_average` (binning.py:76-121) for a
valid configuration: output x-values and y-values per strategy.  Note that
the slope strategies evaluate `eval_power_function` at the *raw* fixed point
(binning.py:82) even though the slopes were computed against the squared one,
and always take the final `** 0.5` (binning.py:83). -/
def coreOut (xs ys : List ℝ) (fp : Option (ℝ × ℝ)) (nbins : ℕ) (ypower : ℝ)
    (strategy : String) (logdomain : Bool) (fitSlope : ℝ) (splineFun : ℝ → ℝ) :
    AggResult :=
  if strategy = "y_mean" ∨ strategy = "y_median" then
    ⟨(keptRows (useMedian strategy) logdomain xs ys fp nbins).map (fun r => r.2.1),
     (keptRows (useMedian strategy) logdomain xs ys fp nbins).map
       (fun r => r.2.2.1 ^ ypower)⟩
  else if strategy = "slope_mean" ∨ strategy = "slope_median" then
    ⟨(keptRows (useMedian strategy) logdomain xs ys fp nbins).map (fun r => r.2.1),
     (keptRows (useMedian strategy) logdomain xs ys fp nbins).map (fun r =>
       (eval_power_function r.2.1 (r.2.2.2.getD 0) (fp.getD (0, 0))) ^ (0.5 : ℝ))⟩
  else if strategy = "fit" then
    ⟨shrunkGrid xs nbins,
     (shrunkGrid xs nbins).map (fun x => eval_power_function x fitSlope (fp.getD (0, 0)))⟩
  else
    ⟨shrunkGrid xs nbins, (shrunkGrid xs nbins).map splineFun⟩

/-- binning.py:123-127: each `add_after` point is inserted at position 0 in
turn, so the block ends up reversed in front of the aggregated curve. -/
def addAfterStep (pts : List (ℝ × ℝ)) (out : AggResult) : AggResult :=
  pts.foldl (fun acc p => ⟨p.1 :: acc.xs, p.2 :: acc.ys⟩) out

/-- `bin_and_average` (binning.py:16-132) with `full_output=False` and
`silent=True` (`scale` is hard-coded to `"log"`).  Fallible paths are modelled
as `Except.error` with the Python exception class raised there, in source
order: `min()` of an empty list or a ragged DataFrame (`ValueError`,
binning.py:35,39), the `assert strategy != "slope"` guard when no fixed point
is given (`AssertionError`, binning.py:38), the `STRAT_USED[strategy]` lookup
for a name outside `strats` (`KeyError`, binning.py:47 — evaluated before the
`and not silent` short-circuit, hence raised for every input), the
`df['slope']` column lookup for a slope strategy without fixed point
(`KeyError`, binning.py:82), and unpacking `fixed_point=None` inside
`eval_power_function` for the `fit` strategy (`TypeError`,
binning.py:86-87,195). -/
def bin_and_average (xs ys : List ℝ) (fixed_point : Option (ℝ × ℝ)) (nbins : ℕ)
    (ypower : ℝ) (add_after : List (ℝ × ℝ)) (strategy : String) (logdomain : Bool)
    (fitSlope : ℝ) (splineFun : ℝ → ℝ) : Except PyError AggResult :=
  if xs = [] ∨ ys = [] ∨ xs.length ≠ ys.length then .error .valueError
  else if fixed_point = none ∧ strategy = "slope" then .error .assertionError
  else if strategy ∉ strats then .error .keyError
  else if (strategy = "slope_mean" ∨ strategy = "slope_median") ∧ fixed_point = none then
    .error .keyError
  else if strategy = "fit" ∧ fixed_point = none then .error .typeError
  else .ok (addAfterStep add_after
    (coreOut xs ys fixed_point nbins ypower strategy logdomain fitSlope splineFun))

/-- `QAEemulator.Nq_from_m` (QAE_emulator.py:365-377, `b10=False`):
`Nq_per_shot = 2*(2**m) + 1`, `Nq = Nq_per_shot * nshots`. -/
def Nq_from_m (m nshots : ℕ) : ℕ := (2 * 2 ^ m + 1) * nshots

/-- `QAEemulator.m_from_Nq` (QAE_emulator.py:379-390):
`int(round(np.log2(Nq_target/nshots - 1) - 1))`.  Python rounds half-integers
to even while Mathlib's `round` rounds them up; the two agree away from
half-integers, in particular on the exact values arising in the theorems
below. -/
def m_from_Nq (Nq_target nshots : ℝ) : ℤ :=
  round (Real.logb 2 (Nq_target / nshots - 1) - 1)

/-- Modelled from the spec: the `Runner` class of `src.utils.running`
(imported at BAE_testing.py:13) is not part of the provided sources.  Per
spec §4.4/§5 it executes the trial function strictly sequentially with a
cancellation check between trials, concatenates the completed trials' traces
(queries, squared errors, stds) in run order, and reports the number of
completed trials; `cancelAt` is the trial boundary at which a user abort
arrives (`nruns` or more when no abort occurs). -/
def Runner_run (trace : ℕ → List ℝ × List ℝ × List ℝ) (nruns cancelAt : ℕ) :
    ℕ × (List ℝ × List ℝ × List ℝ) :=
  let k := min nruns cancelAt
  (k, ((List.range k).flatMap (fun i => (trace i).1),
       (List.range k).flatMap (fun i => (trace i).2.1),
       (List.range k).flatMap (fun i => (trace i).2.2)))

/-- `TestBAE.sqe_evolution_multiple` after the runner returns
(BAE_testing.py:128-139): `nruns = runner.run()`; when `nruns == 0` the
method returns immediately — no `create_estdata`, no `process_and_plot` —
otherwise the flattened data is processed.  The downstream processing is
abstracted as `process`. -/
def sqe_evolution_multiple_post {α : Type} (process : List ℝ × List ℝ × List ℝ → α)
    (runnerOut : ℕ × (List ℝ × List ℝ × List ℝ)) : Option α :=
  if runnerOut.1 = 0 then none else some (process runnerOut.2)

end

/-! ## Helper lemmas -/

theorem addAfterStep_eq (pts : List (ℝ × ℝ)) (o : AggResult) :
    addAfterStep pts o =
      ⟨(pts.map Prod.fst).reverse ++ o.xs, (pts.map Prod.snd).reverse ++ o.ys⟩ := by
  induction pts generalizing o with
  | nil => simp [addAfterStep]
  | cons p t ih =>
      simp only [addAfterStep, List.foldl_cons] at ih ⊢
      rw [ih ⟨p.1 :: o.xs, p.2 :: o.ys⟩]
      simp

theorem addAfterStep_nil (o : AggResult) : addAfterStep [] o = o := rfl

/-- The addition of `add_after` points commutes with the rest of the
pipeline: the full call equals the call without `add_after`, post-processed
by `addAfterStep`. -/
theorem bin_and_average_addAfter (xs ys : List ℝ) (fp : Option (ℝ × ℝ)) (nbins : ℕ)
    (ypower : ℝ) (pts : List (ℝ × ℝ)) (strategy : String) (logdomain : Bool)
    (fitSlope : ℝ) (splineFun : ℝ → ℝ) :
    bin_and_average xs ys fp nbins ypower pts strategy logdomain fitSlope splineFun =
      (bin_and_average xs ys fp nbins ypower [] strategy logdomain fitSlope splineFun).map
        (addAfterStep pts) := by
  unfold bin_and_average
  split_ifs <;> simp [Except.map, addAfterStep_nil]

/-- With `nbins = 0` the binning produces a single edge, hence no interval at
all: every row is labelled NaN, the grouped frame is empty and the binning
strategies return an empty curve with no error raised. -/
theorem nbins_zero_ok_aux (xs ys : List ℝ) (fp : Option (ℝ × ℝ)) (ypower : ℝ)
    (strategy : String) (logdomain : Bool) (fitSlope : ℝ) (splineFun : ℝ → ℝ)
    (hxs : xs ≠ []) (hys : ys ≠ []) (hlen : xs.length = ys.length)
    (hstrat : strategy = "y_mean" ∨ strategy = "y_median" ∨
              strategy = "slope_mean" ∨ strategy = "slope_median")
    (hfp : (strategy = "slope_mean" ∨ strategy = "slope_median") → fp ≠ none) :
    bin_and_average xs ys fp 0 ypower [] strategy logdomain fitSlope splineFun
      = .ok ⟨[], []⟩ := by
  have hb : buckets xs ys fp 0 = [] := by simp [buckets]
  have hk : ∀ md ld, keptRows md ld xs ys fp 0 = [] := by
    intro md ld
    simp [keptRows, aggRows, hb]
  rcases hstrat with h | h | h | h <;> subst h <;>
    simp [bin_and_average, hxs, hys, hlen, strats, coreOut, hk, addAfterStep_nil, hfp]

theorem pairwise_le_getD (L : List ℝ) (hmono : L.Pairwise (· ≤ ·)) (i j : ℕ)
    (hij : i ≤ j) (hj : j < L.length) : L.getD i 0 ≤ L.getD j 0 := by
  rcases Nat.lt_or_ge i j with hlt | hge
  · have hi : i < L.length := lt_trans hlt hj
    rw [List.getD_eq_getElem _ _ hi, List.getD_eq_getElem _ _ hj]
    have := List.pairwise_iff_get.mp hmono ⟨i, hi⟩ ⟨j, hj⟩ hlt
    simpa using this
  · have heq : i = j := le_antisymm hij hge
    subst heq
    exact le_refl _

theorem cutFrom_eq_some (x : ℝ) (k : ℕ) :
    ∀ (L : List ℝ) (i : ℕ), L.Pairwise (· ≤ ·) → k + 1 < L.length →
      L.getD k 0 < x → x ≤ L.getD (k + 1) 0 → cutFrom x L i = some (i + k) := by
  induction k with
  | zero =>
      intro L i hmono hk hlo hhi
      match L, hk with
      | e1 :: e2 :: rest, _ =>
          have hlo1 : e1 < x := by simpa using hlo
          have hhi1 : x ≤ e2 := by simpa using hhi
          simp [cutFrom, hlo1, hhi1]
  | succ k ih =>
      intro L i hmono hk hlo hhi
      match L, hk with
      | e1 :: e2 :: rest, hk =>
          have htail : (e2 :: rest).Pairwise (· ≤ ·) := hmono.of_cons
          have hklen : k + 1 < (e2 :: rest).length := by
            simpa using Nat.lt_of_succ_lt_succ hk
          have hlo2 : (e2 :: rest).getD k 0 < x := by simpa using hlo
          have hhi2 : x ≤ (e2 :: rest).getD (k + 1) 0 := by simpa using hhi
          have he2 : e2 ≤ (e2 :: rest).getD k 0 :=
            pairwise_le_getD _ htail 0 k (Nat.zero_le k) (Nat.lt_of_succ_lt hklen)
          have hnot : ¬ (e1 < x ∧ x ≤ e2) := by
            rintro ⟨-, hxe2⟩
            exact absurd (lt_of_le_of_lt (hxe2.trans he2) hlo2) (lt_irrefl x)
          simp only [cutFrom, if_neg hnot]
          rw [ih (e2 :: rest) (i + 1) htail hklen hlo2 hhi2]
          congr 1
          omega

theorem cutBin_first_getD (E : List ℝ) (x : ℝ) (hlen : 2 ≤ E.length)
    (h0 : E.getD 0 0 ≤ x) (h1 : x ≤ E.getD 1 0) : cutBin E x = some 0 := by
  match E, hlen with
  | e0 :: e1 :: rest, _ =>
      have h0a : e0 ≤ x := by simpa using h0
      have h1a : x ≤ e1 := by simpa using h1
      simp [cutBin, h0a, h1a]

theorem cutBin_eq_some_of_Ioc (E : List ℝ) (x : ℝ) (k : ℕ)
    (hmono : E.Pairwise (· ≤ ·)) (hk : k + 1 < E.length)
    (hlo : E.getD k 0 < x) (hhi : x ≤ E.getD (k + 1) 0) :
    cutBin E x = some k := by
  match E, hk with
  | e0 :: e1 :: rest, hk =>
      cases k with
      | zero =>
          exact cutBin_first_getD _ x (by simp) (le_of_lt hlo) hhi
      | succ k =>
          have htail : (e1 :: rest).Pairwise (· ≤ ·) := hmono.of_cons
          have hklen : k + 1 < (e1 :: rest).length := by
            simpa using Nat.lt_of_succ_lt_succ hk
          have hlo2 : (e1 :: rest).getD k 0 < x := by simpa using hlo
          have hhi2 : x ≤ (e1 :: rest).getD (k + 1) 0 := by simpa using hhi
          have he1 : e1 ≤ (e1 :: rest).getD k 0 :=
            pairwise_le_getD _ htail 0 k (Nat.zero_le k) (Nat.lt_of_succ_lt hklen)
          have hnot : ¬ (e0 ≤ x ∧ x ≤ e1) := by
            rintro ⟨-, hxe1⟩
            exact absurd (lt_of_le_of_lt (hxe1.trans he1) hlo2) (lt_irrefl x)
          simp only [cutBin, if_neg hnot]
          rw [cutFrom_eq_some x k (e1 :: rest) 1 htail hklen hlo2 hhi2]
          congr 1
          omega

theorem linspace_length (a b : ℝ) (n : ℕ) : (linspace a b n).length = n := by
  unfold linspace
  rw [List.length_map, List.length_range]

theorem logspace_length (la lb : ℝ) (n : ℕ) : (logspace la lb n).length = n := by
  unfold logspace
  rw [List.length_map, linspace_length]

theorem linspace_getD (a b : ℝ) (n i : ℕ) (hi : i < n) :
    (linspace a b n).getD i 0 = a + (i : ℝ) * ((b - a) / ((n : ℝ) - 1)) := by
  have h : i < (linspace a b n).length := by rw [linspace_length]; exact hi
  rw [List.getD_eq_getElem _ _ h]
  simp only [linspace, List.getElem_map, List.getElem_range]

theorem logspace_getD (la lb : ℝ) (n i : ℕ) (hi : i < n) :
    (logspace la lb n).getD i 0 =
      Real.exp (la + (i : ℝ) * ((lb - la) / ((n : ℝ) - 1))) := by
  have h : i < (logspace la lb n).length := by rw [logspace_length]; exact hi
  rw [List.getD_eq_getElem _ _ h]
  simp only [logspace, linspace, List.map_map, List.getElem_map, List.getElem_range,
    Function.comp]

theorem logspace_pairwise_le (la lb : ℝ) (n : ℕ) (h : la ≤ lb) :
    (logspace la lb n).Pairwise (· ≤ ·) := by
  rcases Nat.lt_or_ge n 2 with hn | hn
  · match n, hn with
    | 0, _ => simp [logspace, linspace]
    | 1, _ => simp [logspace, linspace]
  · have hn1 : (0 : ℝ) < (n : ℝ) - 1 := by
      have : (2 : ℝ) ≤ (n : ℝ) := by exact_mod_cast hn
      linarith
    have hstep : 0 ≤ (lb - la) / ((n : ℝ) - 1) := div_nonneg (by linarith) (le_of_lt hn1)
    unfold logspace linspace
    rw [List.map_map, List.pairwise_map]
    refine List.Pairwise.imp (fun {i j} hij => ?_) (List.pairwise_lt_range n)
    have hij' : (i : ℝ) ≤ (j : ℝ) := by exact_mod_cast le_of_lt hij
    simp only [Function.comp]
    apply Real.exp_le_exp.mpr
    have := mul_le_mul_of_nonneg_right hij' hstep
    linarith

theorem logspace_pairwise_lt (la lb : ℝ) (n : ℕ) (h : la < lb) :
    (logspace la lb n).Pairwise (· < ·) := by
  rcases Nat.lt_or_ge n 2 with hn | hn
  · match n, hn with
    | 0, _ => simp [logspace, linspace]
    | 1, _ => simp [logspace, linspace]
  · have hn1 : (0 : ℝ) < (n : ℝ) - 1 := by
      have : (2 : ℝ) ≤ (n : ℝ) := by exact_mod_cast hn
      linarith
    have hstep : 0 < (lb - la) / ((n : ℝ) - 1) := div_pos (by linarith) hn1
    unfold logspace linspace
    rw [List.map_map, List.pairwise_map]
    refine List.Pairwise.imp (fun {i j} hij => ?_) (List.pairwise_lt_range n)
    have hij' : (i : ℝ) < (j : ℝ) := by exact_mod_cast hij
    simp only [Function.comp]
    apply Real.exp_lt_exp.mpr
    have := mul_lt_mul_of_pos_right hij' hstep
    linarith

/-! ## Claims -/

/-- **C10.**  For every `m ≥ 0` and `nshots ≥ 1`, converting `m` to a query
count with `Nq_from_m` and back with `m_from_Nq` recovers exactly `m`:
`(2*2^m+1)*nshots / nshots - 1 = 2^(m+1)` exactly, whose base-2 logarithm is
`m + 1`, and rounding the exact integer `m` is the identity. -/
theorem m_from_Nq_inverts_Nq_from_m (m nshots : ℕ) (h : 1 ≤ nshots) :
    m_from_Nq (Nq_from_m m nshots) nshots = m := by
  have hn : (nshots : ℝ) ≠ 0 := by
    have : (0 : ℝ) < nshots := by exact_mod_cast Nat.lt_of_lt_of_le Nat.zero_lt_one h
    exact ne_of_gt this
  unfold m_from_Nq Nq_from_m
  have h1 : ((((2 * 2 ^ m + 1) * nshots : ℕ) : ℝ)) / (nshots : ℝ) - 1 = (2 : ℝ) ^ (m + 1) := by
    push_cast
    field_simp
    ring
  rw [h1, ← Real.rpow_natCast 2 (m + 1),
    Real.logb_rpow (by norm_num) (by norm_num)]
  push_cast
  have h2 : ((m : ℝ) + 1) - 1 = (m : ℝ) := by ring
  rw [h2, round_natCast]

/-- Witness for C10 at `m = 3`, `nshots = 2`. -/
theorem m_from_Nq_inverts_Nq_from_m_witness :
    1 ≤ 2 ∧ m_from_Nq (Nq_from_m 3 2) 2 = 3 :=
  ⟨by decide, m_from_Nq_inverts_Nq_from_m 3 2 (by decide)⟩

/-- **C9.**  When the runner completes zero trials (`n_trials = 0`, or a
cancellation arriving at the very first trial boundary), it reports a zero
completed-trial count, and `sqe_evolution_multiple` returns before any
processing of the collected data is applied. -/
theorem runner_zero_trials_no_processing {α : Type}
    (trace : ℕ → List ℝ × List ℝ × List ℝ) (process : List ℝ × List ℝ × List ℝ → α)
    (nruns cancelAt : ℕ) (h : nruns = 0 ∨ cancelAt = 0) :
    (Runner_run trace nruns cancelAt).1 = 0 ∧
      sqe_evolution_multiple_post process (Runner_run trace nruns cancelAt) = none := by
  have hk : min nruns cancelAt = 0 := by rcases h with h | h <;> simp [h]
  refine ⟨by simp [Runner_run, hk], ?_⟩
  simp [sqe_evolution_multiple_post, Runner_run, hk]

/-- Witness for C9: `n_trials = 0` with a non-trivial trace function. -/
theorem runner_zero_trials_no_processing_witness :
    ((0 : ℕ) = 0 ∨ (5 : ℕ) = 0) ∧
      ((Runner_run (fun _ => ([1], [2], [3])) 0 5).1 = 0 ∧
        sqe_evolution_multiple_post (fun d => d.1.length)
          (Runner_run (fun _ => ([1], [2], [3])) 0 5) = none) :=
  ⟨Or.inl rfl,
   runner_zero_trials_no_processing (fun _ => ([1], [2], [3])) (fun d => d.1.length) 0 5
     (Or.inl rfl)⟩

/-- **C3.**  Calling `bin_and_average` with a strategy name outside the
supported list fails with an error for every input: the `STRAT_USED[strategy]`
lookup raises `KeyError` (binning.py:47) — save for the degenerate inputs on
which the source raises even earlier (`ValueError` from `min([])`,
`AssertionError` from the `"slope"` guard). -/
theorem unknown_strategy_fails (xs ys : List ℝ) (fp : Option (ℝ × ℝ)) (nbins : ℕ)
    (ypower : ℝ) (pts : List (ℝ × ℝ)) (strategy : String) (logdomain : Bool)
    (fitSlope : ℝ) (splineFun : ℝ → ℝ) (h : strategy ∉ strats) :
    ∃ e, bin_and_average xs ys fp nbins ypower pts strategy logdomain fitSlope splineFun
      = .error e := by
  unfold bin_and_average
  by_cases h1 : xs = [] ∨ ys = [] ∨ xs.length ≠ ys.length
  · rw [if_pos h1]; exact ⟨_, rfl⟩
  · rw [if_neg h1]
    by_cases h2 : fp = none ∧ strategy = "slope"
    · rw [if_pos h2]; exact ⟨_, rfl⟩
    · rw [if_neg h2, if_pos h]; exact ⟨_, rfl⟩

/-- Witness for C3: the strategy name `"median"` (a plausible typo for
`"y_median"`) is rejected for a concrete PointSet. -/
theorem unknown_strategy_fails_witness :
    "median" ∉ strats ∧
      ∃ e, bin_and_average [1, 2] [1, 1] none 3 0.5 [] "median" false 0 id = .error e :=
  ⟨by decide, unknown_strategy_fails [1, 2] [1, 1] none 3 0.5 [] "median" false 0 id (by decide)⟩

/-- **C2** (amended).  `bin_and_average` performs no eager validation of its
binning parameters: with `nbins = 0` (i.e. `nbins < 1`) the mean/median
strategies silently return an empty curve instead of raising — no
`ConfigurationError` (nor any other exception) is involved. -/
theorem nbins_zero_silently_empty (xs ys : List ℝ) (fp : Option (ℝ × ℝ)) (ypower : ℝ)
    (strategy : String) (logdomain : Bool) (fitSlope : ℝ) (splineFun : ℝ → ℝ)
    (hxs : xs ≠ []) (hys : ys ≠ []) (hlen : xs.length = ys.length)
    (hstrat : strategy = "y_mean" ∨ strategy = "y_median" ∨
              strategy = "slope_mean" ∨ strategy = "slope_median")
    (hfp : (strategy = "slope_mean" ∨ strategy = "slope_median") → fp ≠ none) :
    bin_and_average xs ys fp 0 ypower [] strategy logdomain fitSlope splineFun
      = .ok ⟨[], []⟩ :=
  nbins_zero_ok_aux xs ys fp ypower strategy logdomain fitSlope splineFun
    hxs hys hlen hstrat hfp

/-- Counterexample to C2 as stated: with `nbins = 0 < 1` the call does not
fail at all — it silently returns an empty curve. -/
theorem nbins_zero_no_error_cex :
    bin_and_average [1, 2] [1, 1] none 0 0.5 [] "y_mean" false 0 id = .ok ⟨[], []⟩ :=
  nbins_zero_ok_aux [1, 2] [1, 1] none 0.5 "y_mean" false 0 id
    (by simp) (by simp) rfl (Or.inl rfl) (by simp)

/-- Witness for the amended C2 at a different concrete input. -/
theorem nbins_zero_silently_empty_witness :
    (([3, 5] : List ℝ) ≠ [] ∧ (([2, 7] : List ℝ)) ≠ [] ∧
      ([3, 5] : List ℝ).length = ([2, 7] : List ℝ).length) ∧
      bin_and_average [3, 5] [2, 7] none 0 1 [] "y_median" false 0 id = .ok ⟨[], []⟩ :=
  ⟨⟨by simp, by simp, rfl⟩,
   nbins_zero_silently_empty [3, 5] [2, 7] none 1 "y_median" false 0 id
     (by simp) (by simp) rfl (Or.inr (Or.inl rfl)) (by simp)⟩

/-- **C8.**  For every strategy and configuration on which aggregation
succeeds, supplying `add_after` points leaves the bucket-aggregated pairs
unchanged and places every `add_after` point at the start of the output,
before all bucket-aggregated pairs (the block of prepended points comes out
reversed, since each point is inserted at position 0 in turn). -/
theorem add_after_prepended (xs ys : List ℝ) (fp : Option (ℝ × ℝ)) (nbins : ℕ)
    (ypower : ℝ) (strategy : String) (logdomain : Bool) (fitSlope : ℝ)
    (splineFun : ℝ → ℝ) (out : AggResult) (pts : List (ℝ × ℝ))
    (h : bin_and_average xs ys fp nbins ypower [] strategy logdomain fitSlope splineFun
          = .ok out) :
    bin_and_average xs ys fp nbins ypower pts strategy logdomain fitSlope splineFun
      = .ok ⟨(pts.map Prod.fst).reverse ++ out.xs, (pts.map Prod.snd).reverse ++ out.ys⟩ ∧
    ((pts.map Prod.fst).reverse ++ out.xs).drop pts.length = out.xs ∧
    ((pts.map Prod.snd).reverse ++ out.ys).drop pts.length = out.ys ∧
    ∀ p ∈ pts, p.1 ∈ ((pts.map Prod.fst).reverse ++ out.xs).take pts.length ∧
               p.2 ∈ ((pts.map Prod.snd).reverse ++ out.ys).take pts.length := by
  have hfst : ((pts.map Prod.fst).reverse : List ℝ).length = pts.length := by simp
  have hsnd : ((pts.map Prod.snd).reverse : List ℝ).length = pts.length := by simp
  refine ⟨?_, ?_, ?_, ?_⟩
  · rw [bin_and_average_addAfter, h]
    simp [Except.map, addAfterStep_eq]
  · rw [← hfst, List.drop_left]
  · rw [← hsnd, List.drop_left]
  · intro p hp
    constructor
    · rw [← hfst, List.take_left]
      simp only [List.mem_reverse, List.mem_map]
      exact ⟨p, hp, rfl⟩
    · rw [← hsnd, List.take_left]
      simp only [List.mem_reverse, List.mem_map]
      exact ⟨p, hp, rfl⟩

/-- Witness for C8: two `add_after` points prepended to an (empty) aggregated
curve. -/
theorem add_after_prepended_witness :
    (bin_and_average [3, 5] [2, 7] none 0 1 [] "y_mean" false 0 id = .ok ⟨[], []⟩) ∧
      bin_and_average [3, 5] [2, 7] none 0 1 [(10, 11), (12, 13)] "y_mean" false 0 id
        = .ok ⟨[12, 10], [13, 11]⟩ := by
  have h : bin_and_average [3, 5] [2, 7] none 0 1 [] "y_mean" false 0 id = .ok ⟨[], []⟩ :=
    nbins_zero_ok_aux [3, 5] [2, 7] none 1 "y_mean" false 0 id
      (by simp) (by simp) rfl (Or.inl rfl) (by simp)
  refine ⟨h, ?_⟩
  have := (add_after_prepended [3, 5] [2, 7] none 0 1 "y_mean" false 0 id
    ⟨[], []⟩ [(10, 11), (12, 13)] h).1
  simpa using this

/-- **C7.**  In log-scale binning over `xrange = (a, b)` the lowest edge is
inclusive: a sample at `x = a` lands in the first bucket, and a sample at
`x = b` in the last.  `n` counts *edges* here, as in `bin_by_values`
(`n = nbins + 1` for `nbins` buckets, so the last bucket has index `n - 2`). -/
theorem log_binning_endpoint_buckets (a b : ℝ) (n : ℕ)
    (ha : 0 < a) (hab : a < b) (hn : 2 ≤ n) :
    cutBin (bin_by_values_edges (a, b) n "log") a = some 0 ∧
    cutBin (bin_by_values_edges (a, b) n "log") b = some (n - 2) := by
  have hb : 0 < b := lt_trans ha hab
  have hlab : Real.log a < Real.log b := Real.log_lt_log ha hab
  have hn1 : (0 : ℝ) < (n : ℝ) - 1 := by
    have : (2 : ℝ) ≤ (n : ℝ) := by exact_mod_cast hn
    linarith
  have hE : bin_by_values_edges (a, b) n "log" = logspace (Real.log a) (Real.log b) n := by
    simp [bin_by_values_edges]
  set s : ℝ := (Real.log b - Real.log a) / ((n : ℝ) - 1) with hs
  have hspos : 0 < s := div_pos (by linarith) hn1
  have hE0 : (logspace (Real.log a) (Real.log b) n).getD 0 0 = a := by
    rw [logspace_getD _ _ _ _ (by omega)]
    simp [Real.exp_log ha]
  have hEtop : (logspace (Real.log a) (Real.log b) n).getD (n - 1) 0 = b := by
    rw [logspace_getD _ _ _ _ (by omega)]
    have hc : ((n - 1 : ℕ) : ℝ) = (n : ℝ) - 1 := by
      have h1 : 1 ≤ n := by omega
      push_cast [h1]
      ring
    rw [hc, ← hs]
    have harg : Real.log a + ((n : ℝ) - 1) * s = Real.log b := by
      rw [hs]
      field_simp
    rw [harg, Real.exp_log hb]
  constructor
  · rw [hE]
    apply cutBin_first_getD _ _ (by rw [logspace_length]; exact hn)
    · rw [hE0]
    · rw [logspace_getD _ _ _ _ (by omega), ← hs]
      have : Real.log a ≤ Real.log a + (1 : ℝ) * s := by
        have := le_of_lt hspos
        linarith
      calc a = Real.exp (Real.log a) := (Real.exp_log ha).symm
        _ ≤ Real.exp (Real.log a + (1 : ℕ) * s) := by
            apply Real.exp_le_exp.mpr
            push_cast
            linarith
  · rw [hE]
    apply cutBin_eq_some_of_Ioc _ _ _ (logspace_pairwise_le _ _ _ (le_of_lt hlab))
      (by rw [logspace_length]; omega)
    · rw [logspace_getD _ _ _ _ (by omega), ← hs]
      have hc : ((n - 2 : ℕ) : ℝ) = (n : ℝ) - 2 := by
        push_cast [hn]
        ring
      rw [hc]
      have harg : Real.log a + ((n : ℝ) - 2) * s < Real.log b := by
        have hr : ((n : ℝ) - 2) / ((n : ℝ) - 1) < 1 := (div_lt_one hn1).mpr (by linarith)
        have h2 : ((n : ℝ) - 2) * s < Real.log b - Real.log a := by
          rw [hs]
          calc ((n : ℝ) - 2) * ((Real.log b - Real.log a) / ((n : ℝ) - 1))
              = (((n : ℝ) - 2) / ((n : ℝ) - 1)) * (Real.log b - Real.log a) := by ring
            _ < 1 * (Real.log b - Real.log a) :=
                mul_lt_mul_of_pos_right hr (by linarith)
            _ = Real.log b - Real.log a := one_mul _
        linarith
      calc Real.exp (Real.log a + ((n : ℝ) - 2) * s) < Real.exp (Real.log b) :=
            Real.exp_lt_exp.mpr harg
        _ = b := Real.exp_log hb
    · have hidx : n - 2 + 1 = n - 1 := by omega
      rw [hidx, hEtop]

/-- Witness for C7 at `xrange = (1, 100)` with `4` edges, i.e. the spec's
3 log-spaced buckets: `x = 1` falls in bucket `0`, `x = 100` in bucket `2`. -/
theorem log_binning_endpoint_buckets_witness :
    ((0 : ℝ) < 1 ∧ (1 : ℝ) < 100 ∧ 2 ≤ 4) ∧
      (cutBin (bin_by_values_edges (1, 100) 4 "log") 1 = some 0 ∧
        cutBin (bin_by_values_edges (1, 100) 4 "log") 100 = some 2) :=
  ⟨⟨by norm_num, by norm_num, by norm_num⟩,
   log_binning_endpoint_buckets 1 100 4 (by norm_num) (by norm_num) (by norm_num)⟩

/-- **C6.**  The slope assigned to row `i` of the DataFrame equals
`(log(y0²) - log(y_i)) / (log(x0) - log(x_i))`: the fixed point's
y-coordinate is squared before the log-space slope is taken (binning.py:42),
whenever the slope is not the degenerate NaN case. -/
theorem slope_formula_squares_fixed_point (xs ys : List ℝ) (x0 y0 : ℝ) (i : ℕ)
    (hi : i < xs.length) (hi' : i < ys.length)
    (hnd : ¬(Real.log x0 - Real.log (xs.getD i 0) = 0 ∧
             Real.log (y0 ^ 2) - Real.log (ys.getD i 0) = 0)) :
    (mkRows xs ys (some (x0, y0))).getD i (0, 0, none) =
      (xs.getD i 0, ys.getD i 0,
        some ((Real.log (y0 ^ 2) - Real.log (ys.getD i 0)) /
              (Real.log x0 - Real.log (xs.getD i 0)))) := by
  have hlen : i < (mkRows xs ys (some (x0, y0))).length := by
    simp only [mkRows, List.length_zipWith]
    omega
  rw [List.getD_eq_getElem _ _ hlen]
  rw [List.getD_eq_getElem xs _ hi, List.getD_eq_getElem ys _ hi'] at hnd ⊢
  simp only [mkRows, List.getElem_zipWith]
  rw [calculate_slope, if_neg (by simpa using hnd)]

/-- Witness for C6 at sample `(2, 3)` and fixed point `(4, 5)`. -/
theorem slope_formula_squares_fixed_point_witness :
    (¬(Real.log 4 - Real.log (([2] : List ℝ).getD 0 0) = 0 ∧
       Real.log ((5 : ℝ) ^ 2) - Real.log (([3] : List ℝ).getD 0 0) = 0)) ∧
      (mkRows [2] [3] (some (4, 5))).getD 0 (0, 0, none) =
        (2, 3, some ((Real.log ((5 : ℝ) ^ 2) - Real.log 3) / (Real.log 4 - Real.log 2))) := by
  have hne : Real.log 4 - Real.log (([2] : List ℝ).getD 0 0) ≠ 0 := by
    have h24 : Real.log 2 < Real.log 4 := Real.log_lt_log (by norm_num) (by norm_num)
    have : ([2] : List ℝ).getD 0 0 = 2 := rfl
    rw [this]
    exact sub_ne_zero_of_ne (ne_of_gt h24)
  refine ⟨fun hc => hne hc.1, ?_⟩
  have := slope_formula_squares_fixed_point [2] [3] 4 5 0 (by simp) (by simp)
    (fun hc => hne hc.1)
  simpa using this

theorem mkRows_slope_eq (p : ℝ × ℝ) :
    ∀ (xs ys : List ℝ) (r : ℝ × ℝ × Option ℝ), r ∈ mkRows xs ys (some p) →
      r.2.2 = calculate_slope (p.1, p.2 ^ 2) (r.1, r.2.1) := by
  intro xs
  induction xs with
  | nil => intro ys r hr; simp [mkRows] at hr
  | cons x xt ih =>
      intro ys r hr
      match ys with
      | [] => simp [mkRows] at hr
      | y :: yt =>
          simp only [mkRows, List.zipWith_cons_cons, List.mem_cons] at hr
          rcases hr with rfl | hr
          · rfl
          · exact ih yt r (by simpa [mkRows] using hr)

theorem calculate_slope_self (q : ℝ × ℝ) : calculate_slope q q = none := by
  simp [calculate_slope]

theorem meanOpt_all_none (l : List (Option ℝ)) (h : ∀ o ∈ l, o = none) :
    meanOpt l = none := by
  have hnil : l.filterMap id = [] := by
    rw [List.filterMap_eq_nil_iff]
    intro a ha
    rw [h a ha]
    rfl
  unfold meanOpt
  rw [hnil]

theorem medianOpt_all_none (l : List (Option ℝ)) (h : ∀ o ∈ l, o = none) :
    medianOpt l = none := by
  have hnil : l.filterMap id = [] := by
    rw [List.filterMap_eq_nil_iff]
    intro a ha
    rw [h a ha]
    rfl
  unfold medianOpt
  rw [hnil]

theorem statAggOpt_all_none (md : Bool) (l : List (Option ℝ)) (h : ∀ o ∈ l, o = none) :
    statAggOpt md l = none := by
  unfold statAggOpt
  cases md
  · simpa using meanOpt_all_none l h
  · simpa using medianOpt_all_none l h

/-- **C4.**  For a slope strategy, a bucket whose every sample coincides with
the fixed point in MSE space (`x = x0` and `y = y0²`) has only NaN slopes
(`0/0`), so the pandas `skipna` group mean/median of its slope column is NaN
and `dropna` removes the bucket: the call succeeds (no exception), the bucket
index is absent from the surviving rows, and every surviving row carries a
non-NaN slope — no NaN reaches the final aggregated curve. -/
theorem coincident_bucket_dropped (xs ys : List ℝ) (x0 y0 ypower : ℝ) (nbins : ℕ)
    (strat : String) (fitSlope : ℝ) (splineFun : ℝ → ℝ)
    (hs : strat = "slope_mean" ∨ strat = "slope_median") (hne : xs ≠ [])
    (hlen : xs.length = ys.length) (b : ℕ)
    (hcoin : ∀ r ∈ bucketMembers xs ys (some (x0, y0)) nbins b,
        r.1 = x0 ∧ r.2.1 = y0 ^ 2) :
    (∃ out, bin_and_average xs ys (some (x0, y0)) nbins ypower [] strat false
        fitSlope splineFun = .ok out) ∧
    (∀ md ld, ∀ r ∈ keptRows md ld xs ys (some (x0, y0)) nbins,
        r.1 ≠ b ∧ r.2.2.2.isSome) := by
  have hys : ys ≠ [] := by
    intro hy
    apply hne
    subst hy
    cases xs with
    | nil => rfl
    | cons a t => simp at hlen
  constructor
  · unfold bin_and_average
    rw [if_neg (by simp [hne, hys, hlen]), if_neg (by simp)]
    rw [if_neg (by rcases hs with h | h <;> subst h <;> simp [strats])]
    rw [if_neg (by simp), if_neg (by rcases hs with h | h <;> subst h <;> simp)]
    exact ⟨_, rfl⟩
  · intro md ld r hr
    have hr' : r ∈ (aggRows md ld xs ys (some (x0, y0)) nbins).filter
        (fun r => r.2.2.2.isSome) := by
      simpa [keptRows] using hr
    rw [List.mem_filter] at hr'
    obtain ⟨hmem, hsome⟩ := hr'
    refine ⟨?_, hsome⟩
    intro hb
    simp only [aggRows, List.mem_map] at hmem
    obtain ⟨g, hg, hgr⟩ := hmem
    simp only [buckets, List.mem_filterMap, List.mem_range] at hg
    obtain ⟨bi, hbi, hgb⟩ := hg
    by_cases hemp : (bucketMembers xs ys (some (x0, y0)) nbins bi).isEmpty
    · rw [if_pos hemp] at hgb
      exact absurd hgb (by simp)
    · rw [if_neg hemp] at hgb
      have hgeq : g = (bi, bucketMembers xs ys (some (x0, y0)) nbins bi) :=
        (Option.some.inj hgb).symm
      rw [hgeq] at hgr
      rw [← hgr] at hb hsome
      simp only at hb hsome
      subst hb
      have hall : ∀ o ∈ (bucketMembers xs ys (some (x0, y0)) nbins bi).map
          (fun r => r.2.2), o = none := by
        intro o ho
        simp only [List.mem_map] at ho
        obtain ⟨q, hq, rfl⟩ := ho
        have hc := hcoin q hq
        have hsl := mkRows_slope_eq (x0, y0) xs ys q (List.mem_of_mem_filter hq)
        rw [hsl, hc.1, hc.2]
        exact calculate_slope_self _
      have hnone : (aggRow md ld (bucketMembers xs ys (some (x0, y0)) nbins bi)).2.2
          = none := by
        simp only [aggRow]
        exact statAggOpt_all_none md _ hall
      rw [hnone] at hsome
      simp at hsome

/-- Witness for C4: the spec's scenario — fixed point `(100, 0.1)` (squared to
`0.01` internally) and a single sample at `(100, 0.01)`.  The sample's bucket
is dropped, the call succeeds, and no surviving row carries a NaN slope. -/
theorem coincident_bucket_dropped_witness :
    (∀ r ∈ bucketMembers [100] [1 / 100] (some (100, 1 / 10)) 1 0,
        r.1 = (100 : ℝ) ∧ r.2.1 = (1 / 10 : ℝ) ^ 2) ∧
    (∃ out, bin_and_average [100] [1 / 100] (some (100, 1 / 10)) 1 0.5 [] "slope_mean"
        false 0 id = .ok out) ∧
    (∀ md ld, ∀ r ∈ keptRows md ld [100] [1 / 100] (some (100, 1 / 10)) 1,
        r.1 ≠ 0 ∧ r.2.2.2.isSome) := by
  have hcoin : ∀ r ∈ bucketMembers [100] [1 / 100] (some (100, 1 / 10)) 1 0,
      r.1 = (100 : ℝ) ∧ r.2.1 = (1 / 10 : ℝ) ^ 2 := by
    intro r hr
    have hm := List.mem_of_mem_filter hr
    simp only [mkRows, List.zipWith_cons_cons, List.zipWith_nil_right,
      List.mem_singleton] at hm
    subst hm
    constructor
    · rfl
    · norm_num
  have h := coincident_bucket_dropped [100] [1 / 100] 100 (1 / 10) 0.5 1 "slope_mean"
    0 id (Or.inl rfl) (by simp) rfl 0 hcoin
  exact ⟨hcoin, h.1, h.2⟩

/-- **C1** (amended).  For the slope strategies, the aggregated y of every
surviving non-empty bucket is obtained by evaluating the power law
`y = (x0*y0) * x_bin^slope_bin` with the fixed point **exactly as supplied**
— `y0` in RMSE units, *not* squared (binning.py:82 passes `fixed_point`, not
`fixed_point_sq`, to `eval_power_function`; only the slopes were computed
against the squared fixed point) — and the final reported y is that value
raised to the 0.5 power (binning.py:83).  Here `x_bin` is the bucket's
aggregated x and `slope_bin` the pandas-`skipna` mean/median of the bucket's
sample slopes. -/
theorem slope_strategy_power_law (xs ys : List ℝ) (x0 y0 ypower : ℝ) (nbins : ℕ)
    (strat : String) (fitSlope : ℝ) (splineFun : ℝ → ℝ) (out : AggResult)
    (hs : strat = "slope_mean" ∨ strat = "slope_median")
    (h : bin_and_average xs ys (some (x0, y0)) nbins ypower [] strat false
          fitSlope splineFun = .ok out)
    (b : ℕ) (ms : List (ℝ × ℝ × Option ℝ))
    (hmem : (b, ms) ∈ buckets xs ys (some (x0, y0)) nbins) (s : ℝ)
    (hsagg : statAggOpt (useMedian strat) (ms.map (fun r => r.2.2)) = some s) :
    (statAgg (useMedian strat) (ms.map (fun r => r.1)),
     (x0 * y0 * statAgg (useMedian strat) (ms.map (fun r => r.1)) ^ s) ^ (0.5 : ℝ))
      ∈ List.zip out.xs out.ys := by
  unfold bin_and_average at h
  split_ifs at h with h1 h2 h3 h4 h5 <;> try exact Except.noConfusion h
  rw [addAfterStep_nil] at h
  have hco := Except.ok.inj h
  subst hco
  have hyne : ¬(strat = "y_mean" ∨ strat = "y_median") := by
    rcases hs with hstr | hstr <;> subst hstr <;> simp
  simp only [coreOut]
  rw [if_neg hyne, if_pos hs, List.zip_map']
  apply List.mem_map.mpr
  refine ⟨(b, aggRow (useMedian strat) false ms), ?_, ?_⟩
  · unfold keptRows
    rw [if_pos (show (some (x0, y0)).isSome = true from rfl)]
    apply List.mem_filter.mpr
    constructor
    · exact List.mem_map.mpr ⟨(b, ms), hmem, rfl⟩
    · simp [aggRow, hsagg]
  · simp [aggRow, hsagg, eval_power_function]

theorem slopeCex_edges : binEdges ([5] : List ℝ) 1 = [5, 5] := by
  unfold binEdges bin_by_values_edges
  have hmin : listMin [5] = 5 := rfl
  have hmax : listMax [5] = 5 := rfl
  rw [hmin, hmax, if_pos rfl]
  unfold logspace linspace
  have hr : List.range 2 = [0, 1] := rfl
  rw [hr]
  simp [Real.exp_log]

theorem slopeCex_rows :
    mkRows [5] [1] (some (2, 3)) =
      [(5, 1, some (Real.log 9 / (Real.log 2 - Real.log 5)))] := by
  have h25 : Real.log 2 - Real.log 5 ≠ 0 := by
    have : Real.log 2 < Real.log 5 := Real.log_lt_log (by norm_num) (by norm_num)
    exact ne_of_lt (by linarith)
  unfold mkRows
  simp only [List.zipWith_cons_cons, List.zipWith_nil_right]
  unfold calculate_slope
  rw [if_neg (fun hc => h25 hc.1)]
  have h9 : ((3 : ℝ) ^ 2) = 9 := by norm_num
  rw [h9, Real.log_one, sub_zero]

theorem slopeCex_members :
    bucketMembers [5] [1] (some (2, 3)) 1 0 =
      [(5, 1, some (Real.log 9 / (Real.log 2 - Real.log 5)))] := by
  unfold bucketMembers
  rw [slopeCex_rows, slopeCex_edges]
  have hcut : cutBin [(5 : ℝ), 5] 5 = some 0 := by simp [cutBin]
  simp [hcut]

theorem slopeCex_buckets :
    buckets [5] [1] (some (2, 3)) 1 =
      [(0, [(5, 1, some (Real.log 9 / (Real.log 2 - Real.log 5)))])] := by
  unfold buckets
  have hr : List.range 1 = [0] := rfl
  rw [hr]
  simp [slopeCex_members]

theorem slopeCex_kept :
    keptRows false false [5] [1] (some (2, 3)) 1 =
      [(0, (5, 1, some (Real.log 9 / (Real.log 2 - Real.log 5))))] := by
  unfold keptRows aggRows
  rw [if_pos (show (some ((2 : ℝ), (3 : ℝ))).isSome = true from rfl), slopeCex_buckets]
  simp [aggRow, statAgg, statAggOpt, meanOpt, lmean]

theorem slopeCex_eval :
    bin_and_average [5] [1] (some (2, 3)) 1 0.5 [] "slope_mean" false 0 id
      = .ok ⟨[5], [((6 : ℝ) * (5 : ℝ) ^ (Real.log 9 / (Real.log 2 - Real.log 5)))
          ^ (0.5 : ℝ)]⟩ := by
  unfold bin_and_average
  rw [if_neg (by simp), if_neg (by simp), if_neg (by simp [strats]),
    if_neg (by simp), if_neg (by simp), addAfterStep_nil]
  unfold coreOut
  rw [if_neg (by simp), if_pos (by simp)]
  have hmd : useMedian "slope_mean" = false := rfl
  rw [hmd, slopeCex_kept]
  simp [eval_power_function]
  norm_num

/-- Counterexample to C1 as stated: for the single sample `(5, 1)` with fixed
point `(2, 3)` (one bucket, aggregated x `5` and slope
`log 9 / (log 2 - log 5)`), the code reports
`((2*3) * 5^slope) ** 0.5`, not the claim's
`((2*3²) * 5^slope) ** 0.5` — the fixed point's y-coordinate is not squared
in the power-law evaluation, and the two values differ. -/
theorem slope_strategy_uses_raw_fixed_point_cex :
    (bin_and_average [5] [1] (some (2, 3)) 1 0.5 [] "slope_mean" false 0 id
      = .ok ⟨[5], [((6 : ℝ) * (5 : ℝ) ^ (Real.log 9 / (Real.log 2 - Real.log 5)))
          ^ (0.5 : ℝ)]⟩) ∧
    ((6 : ℝ) * (5 : ℝ) ^ (Real.log 9 / (Real.log 2 - Real.log 5))) ^ (0.5 : ℝ) ≠
      ((2 * 3 ^ 2) * (5 : ℝ) ^ (Real.log 9 / (Real.log 2 - Real.log 5))) ^ (0.5 : ℝ) := by
  refine ⟨slopeCex_eval, ?_⟩
  have hA : (0 : ℝ) < (5 : ℝ) ^ (Real.log 9 / (Real.log 2 - Real.log 5)) :=
    Real.rpow_pos_of_pos (by norm_num) _
  have h6 : (6 : ℝ) * (5 : ℝ) ^ (Real.log 9 / (Real.log 2 - Real.log 5)) <
      (2 * 3 ^ 2) * (5 : ℝ) ^ (Real.log 9 / (Real.log 2 - Real.log 5)) := by nlinarith
  exact ne_of_lt (Real.rpow_lt_rpow (by positivity) h6 (by norm_num))

/-- Witness for the amended C1: the same concrete single-bucket pipeline,
through the general theorem. -/
theorem slope_strategy_power_law_witness :
    ∃ out, bin_and_average [5] [1] (some (2, 3)) 1 0.5 [] "slope_mean" false 0 id
        = .ok out ∧
      (statAgg (useMedian "slope_mean")
          ([((5 : ℝ), (1 : ℝ), some (Real.log 9 / (Real.log 2 - Real.log 5)))].map
            (fun r => r.1)),
       (2 * 3 * statAgg (useMedian "slope_mean")
          ([((5 : ℝ), (1 : ℝ), some (Real.log 9 / (Real.log 2 - Real.log 5)))].map
            (fun r => r.1)) ^ (Real.log 9 / (Real.log 2 - Real.log 5))) ^ (0.5 : ℝ))
        ∈ List.zip out.xs out.ys := by
  refine ⟨_, slopeCex_eval, ?_⟩
  apply slope_strategy_power_law [5] [1] 2 3 0.5 1 "slope_mean" 0 id _
    (Or.inl rfl) slopeCex_eval 0
    [((5 : ℝ), (1 : ℝ), some (Real.log 9 / (Real.log 2 - Real.log 5)))]
    (by rw [slopeCex_buckets]; exact List.mem_singleton.mpr rfl)
    (Real.log 9 / (Real.log 2 - Real.log 5))
  have hmd : useMedian "slope_mean" = false := rfl
  rw [hmd]
  simp [statAggOpt, meanOpt, lmean]

theorem foldl_min_mem (x : ℝ) (t : List ℝ) : t.foldl min x ∈ x :: t := by
  induction t generalizing x with
  | nil => simp
  | cons z t ih =>
      simp only [List.foldl_cons]
      have hmem := ih (min x z)
      rcases List.mem_cons.mp hmem with heq | hmem'
      · rcases min_choice x z with hc | hc
        · rw [heq, hc]; simp
        · rw [heq, hc]; simp
      · simp [List.mem_cons.mpr (Or.inr hmem')]

theorem foldl_min_le (x : ℝ) (t : List ℝ) : ∀ y ∈ x :: t, t.foldl min x ≤ y := by
  induction t generalizing x with
  | nil =>
      intro y hy
      simp only [List.mem_singleton] at hy
      subst hy
      exact le_refl _
  | cons z t ih =>
      intro y hy
      simp only [List.foldl_cons]
      rcases List.mem_cons.mp hy with rfl | hy'
      · exact le_trans (ih (min y z) (min y z) (by simp)) (min_le_left y z)
      · rcases List.mem_cons.mp hy' with rfl | hy''
        · exact le_trans (ih (min x y) (min x y) (by simp)) (min_le_right x y)
        · exact ih (min x z) y (by simp [hy''])

theorem foldl_max_mem (x : ℝ) (t : List ℝ) : t.foldl max x ∈ x :: t := by
  induction t generalizing x with
  | nil => simp
  | cons z t ih =>
      simp only [List.foldl_cons]
      have hmem := ih (max x z)
      rcases List.mem_cons.mp hmem with heq | hmem'
      · rcases max_choice x z with hc | hc
        · rw [heq, hc]; simp
        · rw [heq, hc]; simp
      · simp [List.mem_cons.mpr (Or.inr hmem')]

theorem le_foldl_max (x : ℝ) (t : List ℝ) : ∀ y ∈ x :: t, y ≤ t.foldl max x := by
  induction t generalizing x with
  | nil =>
      intro y hy
      simp only [List.mem_singleton] at hy
      subst hy
      exact le_refl _
  | cons z t ih =>
      intro y hy
      simp only [List.foldl_cons]
      rcases List.mem_cons.mp hy with rfl | hy'
      · exact le_trans (le_max_left y z) (ih (max y z) (max y z) (by simp))
      · rcases List.mem_cons.mp hy' with rfl | hy''
        · exact le_trans (le_max_right x y) (ih (max x y) (max x y) (by simp))
        · exact ih (max x z) y (by simp [hy''])

theorem listMin_mem (xs : List ℝ) (h : xs ≠ []) : listMin xs ∈ xs := by
  match xs, h with
  | x :: t, _ => exact foldl_min_mem x t

theorem listMin_le (xs : List ℝ) (h : xs ≠ []) : ∀ y ∈ xs, listMin xs ≤ y := by
  match xs, h with
  | x :: t, _ => exact foldl_min_le x t

theorem listMax_mem (xs : List ℝ) (h : xs ≠ []) : listMax xs ∈ xs := by
  match xs, h with
  | x :: t, _ => exact foldl_max_mem x t

theorem le_listMax (xs : List ℝ) (h : xs ≠ []) : ∀ y ∈ xs, y ≤ listMax xs := by
  match xs, h with
  | x :: t, _ => exact le_foldl_max x t

theorem lmean_le (l : List ℝ) (c : ℝ) (hne : l ≠ []) (h : ∀ v ∈ l, v ≤ c) :
    lmean l ≤ c := by
  have hlen : (0 : ℝ) < l.length := by
    have := List.length_pos.mpr hne
    exact_mod_cast this
  have hsum : l.sum ≤ (l.length : ℝ) * c := by
    have := List.sum_le_card_nsmul l c h
    simpa [nsmul_eq_mul] using this
  rw [lmean, div_le_iff hlen]
  linarith [hsum]

theorem le_lmean (l : List ℝ) (c : ℝ) (hne : l ≠ []) (h : ∀ v ∈ l, c ≤ v) :
    c ≤ lmean l := by
  have hlen : (0 : ℝ) < l.length := by
    have := List.length_pos.mpr hne
    exact_mod_cast this
  have hsum : (l.length : ℝ) * c ≤ l.sum := by
    have := List.card_nsmul_le_sum l c h
    simpa [nsmul_eq_mul] using this
  rw [lmean, le_div_iff hlen]
  linarith [hsum]

theorem lt_lmean (l : List ℝ) (c : ℝ) (hne : l ≠ []) (h : ∀ v ∈ l, c < v) :
    c < lmean l := by
  match l, hne with
  | v0 :: t, _ =>
      have hlen : (0 : ℝ) < (v0 :: t).length := by
        exact_mod_cast List.length_pos.mpr (by simp)
      have hsumt : (t.length : ℝ) * c ≤ t.sum := by
        have := List.card_nsmul_le_sum t c (fun v hv => le_of_lt (h v (by simp [hv])))
        simpa [nsmul_eq_mul] using this
      have hv0 : c < v0 := h v0 (by simp)
      rw [lmean, lt_div_iff hlen]
      have hsum : (v0 :: t).sum = v0 + t.sum := by simp
      have hlc : (((v0 :: t).length : ℕ) : ℝ) = (t.length : ℝ) + 1 := by
        simp
      rw [hsum, hlc]
      nlinarith [hsumt, hv0]

theorem lmedian_le (l : List ℝ) (c : ℝ) (hne : l ≠ []) (h : ∀ v ∈ l, v ≤ c) :
    lmedian l ≤ c := by
  have hperm := List.mergeSort_perm l (fun a b => decide (a ≤ b))
  have hs : ∀ v ∈ l.mergeSort (fun a b => decide (a ≤ b)), v ≤ c :=
    fun v hv => h v (hperm.mem_iff.mp hv)
  have hlen : (l.mergeSort (fun a b => decide (a ≤ b))).length = l.length :=
    List.length_mergeSort l
  have hlpos : 0 < l.length := List.length_pos.mpr hne
  unfold lmedian
  split_ifs with hodd
  · apply hs
    rw [List.getD_eq_getElem _ _ (by omega)]
    exact List.getElem_mem _
  · have h1 : (l.mergeSort (fun a b => decide (a ≤ b))).getD (l.length / 2 - 1) 0 ≤ c := by
      apply hs
      rw [List.getD_eq_getElem _ _ (by omega)]
      exact List.getElem_mem _
    have h2 : (l.mergeSort (fun a b => decide (a ≤ b))).getD (l.length / 2) 0 ≤ c := by
      apply hs
      rw [List.getD_eq_getElem _ _ (by omega)]
      exact List.getElem_mem _
    linarith

theorem le_lmedian (l : List ℝ) (c : ℝ) (hne : l ≠ []) (h : ∀ v ∈ l, c ≤ v) :
    c ≤ lmedian l := by
  have hperm := List.mergeSort_perm l (fun a b => decide (a ≤ b))
  have hs : ∀ v ∈ l.mergeSort (fun a b => decide (a ≤ b)), c ≤ v :=
    fun v hv => h v (hperm.mem_iff.mp hv)
  have hlen : (l.mergeSort (fun a b => decide (a ≤ b))).length = l.length :=
    List.length_mergeSort l
  have hlpos : 0 < l.length := List.length_pos.mpr hne
  unfold lmedian
  split_ifs with hodd
  · apply hs
    rw [List.getD_eq_getElem _ _ (by omega)]
    exact List.getElem_mem _
  · have h1 : c ≤ (l.mergeSort (fun a b => decide (a ≤ b))).getD (l.length / 2 - 1) 0 := by
      apply hs
      rw [List.getD_eq_getElem _ _ (by omega)]
      exact List.getElem_mem _
    have h2 : c ≤ (l.mergeSort (fun a b => decide (a ≤ b))).getD (l.length / 2) 0 := by
      apply hs
      rw [List.getD_eq_getElem _ _ (by omega)]
      exact List.getElem_mem _
    linarith

theorem lt_lmedian (l : List ℝ) (c : ℝ) (hne : l ≠ []) (h : ∀ v ∈ l, c < v) :
    c < lmedian l := by
  have hperm := List.mergeSort_perm l (fun a b => decide (a ≤ b))
  have hs : ∀ v ∈ l.mergeSort (fun a b => decide (a ≤ b)), c < v :=
    fun v hv => h v (hperm.mem_iff.mp hv)
  have hlen : (l.mergeSort (fun a b => decide (a ≤ b))).length = l.length :=
    List.length_mergeSort l
  have hlpos : 0 < l.length := List.length_pos.mpr hne
  unfold lmedian
  split_ifs with hodd
  · apply hs
    rw [List.getD_eq_getElem _ _ (by omega)]
    exact List.getElem_mem _
  · have h1 : c < (l.mergeSort (fun a b => decide (a ≤ b))).getD (l.length / 2 - 1) 0 := by
      apply hs
      rw [List.getD_eq_getElem _ _ (by omega)]
      exact List.getElem_mem _
    have h2 : c < (l.mergeSort (fun a b => decide (a ≤ b))).getD (l.length / 2) 0 := by
      apply hs
      rw [List.getD_eq_getElem _ _ (by omega)]
      exact List.getElem_mem _
    linarith

theorem statAgg_le (md : Bool) (l : List ℝ) (c : ℝ) (hne : l ≠ []) (h : ∀ v ∈ l, v ≤ c) :
    statAgg md l ≤ c := by
  unfold statAgg
  cases md
  · simpa using lmean_le l c hne h
  · simpa using lmedian_le l c hne h

theorem le_statAgg (md : Bool) (l : List ℝ) (c : ℝ) (hne : l ≠ []) (h : ∀ v ∈ l, c ≤ v) :
    c ≤ statAgg md l := by
  unfold statAgg
  cases md
  · simpa using le_lmean l c hne h
  · simpa using le_lmedian l c hne h

theorem lt_statAgg (md : Bool) (l : List ℝ) (c : ℝ) (hne : l ≠ []) (h : ∀ v ∈ l, c < v) :
    c < statAgg md l := by
  unfold statAgg
  cases md
  · simpa using lt_lmean l c hne h
  · simpa using lt_lmedian l c hne h

theorem cutFrom_sound (x : ℝ) :
    ∀ (L : List ℝ) (i k : ℕ), cutFrom x L i = some k →
      i ≤ k ∧ k - i + 1 < L.length ∧ L.getD (k - i) 0 < x ∧ x ≤ L.getD (k - i + 1) 0 := by
  intro L
  induction L with
  | nil => intro i k h; simp [cutFrom] at h
  | cons e1 t ih =>
      intro i k h
      match t with
      | [] => simp [cutFrom] at h
      | e2 :: rest =>
          by_cases hc : e1 < x ∧ x ≤ e2
          · rw [cutFrom, if_pos hc] at h
            obtain rfl := Option.some.inj h
            refine ⟨le_refl _, ?_, ?_, ?_⟩
            · simp only [Nat.sub_self, List.length_cons]
              omega
            · simpa [Nat.sub_self] using hc.1
            · simpa [Nat.sub_self] using hc.2
          · rw [cutFrom, if_neg hc] at h
            obtain ⟨h1, h2, h3, h4⟩ := ih (i + 1) k h
            have hik : i ≤ k := by omega
            have hki : k - i = (k - (i + 1)) + 1 := by omega
            refine ⟨hik, ?_, ?_, ?_⟩
            · simp only [List.length_cons] at h2 ⊢
              omega
            · rw [hki]
              simpa using h3
            · rw [hki]
              simpa using h4

theorem cutBin_sound (E : List ℝ) (x : ℝ) (k : ℕ) (h : cutBin E x = some k) :
    k + 1 < E.length ∧ E.getD k 0 ≤ x ∧ x ≤ E.getD (k + 1) 0 ∧
      (1 ≤ k → E.getD k 0 < x) := by
  match E with
  | [] => simp [cutBin] at h
  | [e] => simp [cutBin] at h
  | e0 :: e1 :: rest =>
      by_cases hc : e0 ≤ x ∧ x ≤ e1
      · rw [cutBin, if_pos hc] at h
        obtain rfl := Option.some.inj h
        refine ⟨by simp, by simpa using hc.1, by simpa using hc.2, by omega⟩
      · rw [cutBin, if_neg hc] at h
        obtain ⟨h1, h2, h3, h4⟩ := cutFrom_sound x (e1 :: rest) 1 k h
        have hk1 : 1 ≤ k := h1
        have hk : k = (k - 1) + 1 := by omega
        refine ⟨?_, ?_, ?_, fun _ => ?_⟩
        · simp only [List.length_cons] at h2 ⊢
          omega
        · rw [hk]
          simpa using le_of_lt h3
        · rw [hk]
          simpa using h4
        · rw [hk]
          simpa using h3

theorem buckets_mem_inv (xs ys : List ℝ) (fp : Option (ℝ × ℝ)) (nbins : ℕ)
    (g : ℕ × List (ℝ × ℝ × Option ℝ)) (hg : g ∈ buckets xs ys fp nbins) :
    g.1 < nbins ∧ g.2 = bucketMembers xs ys fp nbins g.1 ∧ g.2 ≠ [] := by
  simp only [buckets, List.mem_filterMap, List.mem_range] at hg
  obtain ⟨b, hb, hgb⟩ := hg
  by_cases hemp : (bucketMembers xs ys fp nbins b).isEmpty
  · rw [if_pos hemp] at hgb
    exact absurd hgb (by simp)
  · rw [if_neg hemp] at hgb
    have hgeq : g = (b, bucketMembers xs ys fp nbins b) := (Option.some.inj hgb).symm
    subst hgeq
    refine ⟨hb, rfl, ?_⟩
    simpa [List.isEmpty_iff] using hemp

theorem bucketMembers_cut (xs ys : List ℝ) (fp : Option (ℝ × ℝ)) (nbins b : ℕ)
    (r : ℝ × ℝ × Option ℝ) (hr : r ∈ bucketMembers xs ys fp nbins b) :
    cutBin (binEdges xs nbins) r.1 = some b := by
  have := (List.mem_filter.mp hr).2
  simpa using this

theorem aggRow_x_false (md : Bool) (ms : List (ℝ × ℝ × Option ℝ)) :
    (aggRow md false ms).1 = statAgg md (ms.map (fun r => r.1)) := by
  simp [aggRow]

theorem logspace_pos (la lb : ℝ) (n : ℕ) : ∀ e ∈ logspace la lb n, 0 < e := by
  intro e he
  simp only [logspace, List.mem_map] at he
  obtain ⟨t, _, rfl⟩ := he
  exact Real.exp_pos _

theorem binEdges_eq (xs : List ℝ) (nbins : ℕ) :
    binEdges xs nbins =
      logspace (Real.log (listMin xs)) (Real.log (listMax xs)) (nbins + 1) := by
  unfold binEdges bin_by_values_edges
  rw [if_pos rfl]

theorem binEdges_pos (xs : List ℝ) (nbins : ℕ) : ∀ e ∈ binEdges xs nbins, 0 < e := by
  rw [binEdges_eq]
  exact logspace_pos _ _ _

theorem binEdges_getD_pos (xs : List ℝ) (nbins i : ℕ)
    (hi : i < (binEdges xs nbins).length) : 0 < (binEdges xs nbins).getD i 0 := by
  rw [List.getD_eq_getElem _ _ hi]
  exact binEdges_pos xs nbins _ (List.getElem_mem hi)

/-- The x-values of the surviving aggregated rows are strictly ascending and
positive: each non-empty bucket's aggregated x lies inside the bucket's
half-open interval, the intervals are ordered by the (weakly) monotone edge
list, and filtering (`dropna`) preserves the order. -/
theorem kept_xs_ascending_positive (md : Bool) (xs ys : List ℝ) (fp : Option (ℝ × ℝ))
    (nbins : ℕ) (hpos : ∀ x ∈ xs, 0 < x) (hne : xs ≠ []) :
    List.Pairwise (· < ·) ((keptRows md false xs ys fp nbins).map (fun r => r.2.1)) ∧
      ∀ v ∈ (keptRows md false xs ys fp nbins).map (fun r => r.2.1), 0 < v := by
  have ha : 0 < listMin xs := hpos _ (listMin_mem xs hne)
  have hble : listMin xs ≤ listMax xs := listMin_le xs hne _ (listMax_mem xs hne)
  have hlogle : Real.log (listMin xs) ≤ Real.log (listMax xs) := Real.log_le_log ha hble
  have hEpw : (binEdges xs nbins).Pairwise (· ≤ ·) := by
    rw [binEdges_eq]
    exact logspace_pairwise_le _ _ _ hlogle
  have hbound : ∀ g ∈ buckets xs ys fp nbins,
      g.1 + 1 < (binEdges xs nbins).length ∧
      (binEdges xs nbins).getD g.1 0 ≤ statAgg md (g.2.map (fun r => r.1)) ∧
      statAgg md (g.2.map (fun r => r.1)) ≤ (binEdges xs nbins).getD (g.1 + 1) 0 ∧
      (1 ≤ g.1 → (binEdges xs nbins).getD g.1 0 < statAgg md (g.2.map (fun r => r.1))) := by
    intro g hg
    obtain ⟨hblt, hgms, hgne⟩ := buckets_mem_inv xs ys fp nbins g hg
    obtain ⟨r0, hr0⟩ := List.exists_mem_of_ne_nil _ hgne
    have hcut0 := bucketMembers_cut xs ys fp nbins g.1 r0 (by rw [← hgms]; exact hr0)
    have hsound0 := cutBin_sound _ _ _ hcut0
    have hmapne : g.2.map (fun r => r.1) ≠ [] := by simpa using hgne
    refine ⟨hsound0.1, ?_, ?_, ?_⟩
    · apply le_statAgg md _ _ hmapne
      intro v hv
      obtain ⟨r, hr, rfl⟩ := List.mem_map.mp hv
      exact (cutBin_sound _ _ _ (bucketMembers_cut xs ys fp nbins g.1 r
        (by rw [← hgms]; exact hr))).2.1
    · apply statAgg_le md _ _ hmapne
      intro v hv
      obtain ⟨r, hr, rfl⟩ := List.mem_map.mp hv
      exact (cutBin_sound _ _ _ (bucketMembers_cut xs ys fp nbins g.1 r
        (by rw [← hgms]; exact hr))).2.2.1
    · intro hb1
      apply lt_statAgg md _ _ hmapne
      intro v hv
      obtain ⟨r, hr, rfl⟩ := List.mem_map.mp hv
      exact (cutBin_sound _ _ _ (bucketMembers_cut xs ys fp nbins g.1 r
        (by rw [← hgms]; exact hr))).2.2.2 hb1
  have hpwb : List.Pairwise
      (fun g g' : ℕ × List (ℝ × ℝ × Option ℝ) =>
        statAgg md (g.2.map (fun r => r.1)) < statAgg md (g'.2.map (fun r => r.1)))
      (buckets xs ys fp nbins) := by
    unfold buckets
    rw [List.pairwise_filterMap]
    refine List.Pairwise.imp_of_mem ?_ (List.pairwise_lt_range nbins)
    intro b b' hbmem hbmem' hbb' g hgf g' hgf'
    have hbn : b < nbins := List.mem_range.mp hbmem
    have hbn' : b' < nbins := List.mem_range.mp hbmem'
    by_cases hemp : (bucketMembers xs ys fp nbins b).isEmpty
    · rw [if_pos hemp] at hgf
      simp at hgf
    by_cases hemp' : (bucketMembers xs ys fp nbins b').isEmpty
    · rw [if_pos hemp'] at hgf'
      simp at hgf'
    rw [if_neg hemp] at hgf
    rw [if_neg hemp'] at hgf'
    have hgeq : g = (b, bucketMembers xs ys fp nbins b) := by
      simpa using hgf.symm
    have hgeq' : g' = (b', bucketMembers xs ys fp nbins b') := by
      simpa using hgf'.symm
    have hgmem : g ∈ buckets xs ys fp nbins := by
      simp only [buckets, List.mem_filterMap]
      exact ⟨b, List.mem_range.mpr hbn, by rw [if_neg hemp, hgeq]⟩
    have hgmem' : g' ∈ buckets xs ys fp nbins := by
      simp only [buckets, List.mem_filterMap]
      exact ⟨b', List.mem_range.mpr hbn', by rw [if_neg hemp', hgeq']⟩
    obtain ⟨hlen1, hlo1, hhi1, _⟩ := hbound g hgmem
    obtain ⟨hlen2, _, _, hstrict2⟩ := hbound g' hgmem'
    have hb1 : g.1 = b := by rw [hgeq]
    have hb2 : g'.1 = b' := by rw [hgeq']
    have hE12 : (binEdges xs nbins).getD (g.1 + 1) 0 ≤ (binEdges xs nbins).getD g'.1 0 := by
      apply pairwise_le_getD _ hEpw
      · omega
      · omega
    have hlt2 : (binEdges xs nbins).getD g'.1 0 < statAgg md (g'.2.map (fun r => r.1)) := by
      apply hstrict2
      omega
    exact lt_of_le_of_lt (le_trans hhi1 hE12) hlt2
  have hpwagg : List.Pairwise (fun r r' : ℕ × ℝ × ℝ × Option ℝ => r.2.1 < r'.2.1)
      (aggRows md false xs ys fp nbins) := by
    unfold aggRows
    rw [List.pairwise_map]
    refine List.Pairwise.imp ?_ hpwb
    intro g g' hlt
    simpa [aggRow_x_false] using hlt
  have hsub : (keptRows md false xs ys fp nbins).Sublist (aggRows md false xs ys fp nbins) := by
    unfold keptRows
    split_ifs
    · exact List.filter_sublist _
    · exact List.Sublist.refl _
  have hpwkept : List.Pairwise (fun r r' : ℕ × ℝ × ℝ × Option ℝ => r.2.1 < r'.2.1)
      (keptRows md false xs ys fp nbins) := hpwagg.sublist hsub
  constructor
  · rw [List.pairwise_map]
    exact hpwkept
  · intro v hv
    obtain ⟨r, hr, rfl⟩ := List.mem_map.mp hv
    have hragg : r ∈ aggRows md false xs ys fp nbins := hsub.subset hr
    simp only [aggRows, List.mem_map] at hragg
    obtain ⟨g, hg, hgr⟩ := hragg
    obtain ⟨hlen1, hlo1, _, _⟩ := hbound g hg
    have hx : r.2.1 = statAgg md (g.2.map (fun r => r.1)) := by
      rw [← hgr]
      simpa using aggRow_x_false md g.2
    rw [hx]
    exact lt_of_lt_of_le (binEdges_getD_pos xs nbins g.1 (by omega)) hlo1

theorem shrunkGrid_ascending_positive (xs : List ℝ) (nbins : ℕ)
    (ha : 0 < listMin xs) (hab : listMin xs < listMax xs) :
    List.Pairwise (· < ·) (shrunkGrid xs nbins) ∧ ∀ v ∈ shrunkGrid xs nbins, 0 < v := by
  constructor
  · unfold shrunkGrid
    match nbins with
    | 0 => simp [logspace, linspace]
    | 1 => simp [logspace, linspace]
    | n + 2 =>
        apply logspace_pairwise_lt
        have hw : 0 < Real.log (listMax xs) - Real.log (listMin xs) := by
          have := Real.log_lt_log ha hab
          linarith
        have hn1 : (1 : ℝ) < ((n + 2 : ℕ) : ℝ) := by
          push_cast
          linarith [Nat.cast_nonneg (α := ℝ) n]
        have hbw : (Real.log (listMax xs) - Real.log (listMin xs)) / ((n + 2 : ℕ) : ℝ) <
            Real.log (listMax xs) - Real.log (listMin xs) := div_lt_self hw hn1
        linarith
  · unfold shrunkGrid
    exact logspace_pos _ _ _

/-- **C5** (amended).  For every non-empty PointSet with all x strictly
positive and at least two distinct x-values (`min xs < max xs`), and every
supported strategy (with `logdomain = false`, the default, and no
`add_after` points), when aggregation returns a curve its x-values are
strictly ascending and all strictly positive. -/
theorem aggregate_output_ascending_positive (xs ys : List ℝ) (fp : Option (ℝ × ℝ))
    (nbins : ℕ) (ypower : ℝ) (strategy : String) (fitSlope : ℝ) (splineFun : ℝ → ℝ)
    (out : AggResult)
    (hpos : ∀ x ∈ xs, 0 < x) (hminmax : listMin xs < listMax xs)
    (h : bin_and_average xs ys fp nbins ypower [] strategy false fitSlope splineFun
          = .ok out) :
    List.Pairwise (· < ·) out.xs ∧ ∀ x ∈ out.xs, 0 < x := by
  unfold bin_and_average at h
  split_ifs at h with h1 h2 h3 h4 h5 <;> try exact Except.noConfusion h
  rw [addAfterStep_nil] at h
  have hco := Except.ok.inj h
  subst hco
  have hne : xs ≠ [] := fun hx => h1 (Or.inl hx)
  have ha : 0 < listMin xs := hpos _ (listMin_mem xs hne)
  unfold coreOut
  split_ifs with hA hB hC
  · simpa using kept_xs_ascending_positive (useMedian strategy) xs ys fp nbins hpos hne
  · simpa using kept_xs_ascending_positive (useMedian strategy) xs ys fp nbins hpos hne
  · simpa using shrunkGrid_ascending_positive xs nbins ha hminmax
  · simpa using shrunkGrid_ascending_positive xs nbins ha hminmax

theorem fitCex_grid : shrunkGrid [2, 2] 2 = [2, 2] := by
  unfold shrunkGrid
  have hmin : listMin [2, 2] = 2 := by simp [listMin]
  have hmax : listMax [2, 2] = 2 := by simp [listMax]
  rw [hmin, hmax]
  unfold logspace linspace
  have hr : List.range 2 = [0, 1] := rfl
  rw [hr]
  have h2 : Real.exp (Real.log 2) = 2 := Real.exp_log (by norm_num)
  simp [h2]

theorem fitCex_eval :
    bin_and_average [2, 2] [1, 1] (some (1, 1)) 2 0.5 [] "fit" false 0 id
      = .ok ⟨[2, 2], ([(2 : ℝ), 2]).map
          (fun x => eval_power_function x 0 ((1 : ℝ), (1 : ℝ)))⟩ := by
  unfold bin_and_average
  rw [if_neg (by simp), if_neg (by simp), if_neg (by simp [strats]),
    if_neg (by simp), if_neg (by simp), addAfterStep_nil]
  unfold coreOut
  rw [if_neg (by simp), if_neg (by simp), if_pos rfl, fitCex_grid]
  rfl

/-- Counterexample to C5 as stated: the PointSet `[2, 2]` is non-empty with
all x strictly positive, yet the `fit` strategy returns the degenerate grid
`[2, 2]`, which is not strictly ascending. -/
theorem fit_degenerate_not_ascending_cex :
    (bin_and_average [2, 2] [1, 1] (some (1, 1)) 2 0.5 [] "fit" false 0 id
      = .ok ⟨[2, 2], ([(2 : ℝ), 2]).map
          (fun x => eval_power_function x 0 ((1 : ℝ), (1 : ℝ)))⟩) ∧
    ¬ List.Pairwise (· < ·) [(2 : ℝ), 2] := by
  refine ⟨fitCex_eval, ?_⟩
  intro hp
  have := (List.pairwise_cons.mp hp).1 2 (by simp)
  exact absurd this (lt_irrefl 2)

/-- Witness for the amended C5: a concrete `fit` run on `[2, 8]` through the
general theorem. -/
theorem aggregate_output_ascending_positive_witness :
    (∀ x ∈ ([2, 8] : List ℝ), 0 < x) ∧ listMin [2, 8] < listMax [2, 8] ∧
    ∃ out, bin_and_average [2, 8] [1, 1] (some (1, 1)) 2 0.5 [] "fit" false 0 id
        = .ok out ∧
      (List.Pairwise (· < ·) out.xs ∧ ∀ x ∈ out.xs, 0 < x) := by
  have hpos : ∀ x ∈ ([2, 8] : List ℝ), 0 < x := by
    intro x hx
    rcases List.mem_cons.mp hx with rfl | hx'
    · norm_num
    · rcases List.mem_cons.mp hx' with rfl | hx''
      · norm_num
      · simp at hx''
  have hmm : listMin [2, 8] < listMax [2, 8] := by
    have hmin : listMin [2, 8] = 2 := by
      simp [listMin]
      norm_num [min_def]
    have hmax : listMax [2, 8] = 8 := by
      simp [listMax]
      norm_num [max_def]
    rw [hmin, hmax]
    norm_num
  have hok : bin_and_average [2, 8] [1, 1] (some (1, 1)) 2 0.5 [] "fit" false 0 id
      = .ok (coreOut [2, 8] [1, 1] (some (1, 1)) 2 0.5 "fit" false 0 id) := by
    unfold bin_and_average
    rw [if_neg (by simp), if_neg (by simp), if_neg (by simp [strats]),
      if_neg (by simp), if_neg (by simp), addAfterStep_nil]
  exact ⟨hpos, hmm, _, hok,
    aggregate_output_ascending_positive [2, 8] [1, 1] (some (1, 1)) 2 0.5 "fit" 0 id _
      hpos hmm hok⟩

end BAE
